import Mathlib

/-
  Verification development for the `quotable` word-splitting package.

  The package tokenizes a string into words using a stack-based state
  automaton (modes: normal, quoted, backslash, hex).  This file is a
  shallow embedding of `quotable.go`: each Go function is translated
  into a Lean definition of the same name, and the theorems below settle
  properties of that embedding.

  Modelling conventions:
  - a Go `rune` iterated from a string is a Lean `Char`; the input string
    is consumed as its list of code points (like `for _, c := range s`);
  - the output `strings.Builder` is a `List Char`; Go records word
    boundaries as byte offsets of the builder, always at rune boundaries,
    and slices the result with the same offsets, so recording code-point
    offsets and slicing by code points yields the identical words;
  - the Go state stack appends the active mode at the END of a slice; we
    keep the active (top) mode at the HEAD of a list, so the Go slice's
    bottom element is the list's last element;
  - `rune` arithmetic (`int32`, wrapping) is `Int` with an explicit wrap
    at 2^32 into the signed range;
  - `strings.Builder.WriteRune` encodes U+FFFD when handed an invalid
    rune value, which `runeToChar` reproduces.
-/

namespace Quotable

/-- The automaton modes, from the `state` constants of quotable.go. -/
inductive state where
  | normal : state
  | quoted : state
  | backslash : state
  | hex : state
deriving DecidableEq

/-- `Options` from quotable.go: optional behaviors, zero value is the default. -/
structure Options where
  FancyBackslash : Bool
  OnlySpaceIsSpace : Bool
deriving DecidableEq

/-- The zero `Options` value (both flags false). -/
def defaultOptions : Options := ⟨false, false⟩

/-- Options with extended (fancy) backslash escapes enabled. -/
def fancyOpts : Options := ⟨true, false⟩

/-- Options where only the literal space U+0020 separates words. -/
def strictOpts : Options := ⟨false, true⟩

/-- The `Error` values of quotable.go.  The Go type is a string; the three
kinds produced by the package are distinguishable, with the invalid-escape
message carrying the offending character. -/
inductive GoError where
  | mismatchedQuote : GoError
  | incompleteBackslash : GoError
  | invalidEscape : Char → GoError
deriving DecidableEq

/-- The `quoter` struct of quotable.go.  `inWord` is the source's `partial`
field (do we have a partial word); `currentFunc` is not carried because it
always equals the state function of the top stack entry, which we dispatch
on directly.  The option function pointers `isspace` and `backslash` are
replaced by passing the `Options` value to the dispatcher. -/
structure quoter where
  buf : List Char
  states : List state
  inWord : Bool
  parseHex : Int
  hexValue : Int
  indexes : List Nat
  err : Option GoError
deriving DecidableEq

/-- `(*quoter).push` from quotable.go: seed the stack with `normal` if it is
empty, then push the new top mode. -/
def push (q : quoter) (s : state) : quoter :=
  let base := if q.states.isEmpty then [state.normal] else q.states
  { q with states := s :: base }

/-- `(*quoter).pop` from quotable.go: remove the top mode unless that would
leave the stack empty. -/
def pop (q : quoter) : quoter :=
  match q.states with
  | _ :: b :: rest => { q with states := b :: rest }
  | _ => q

/-- `(*quoter).newWord` from quotable.go: if a partial word exists, record
the current buffer length as a word boundary and clear the partial flag. -/
def newWord (q : quoter) : quoter :=
  if q.inWord then { q with indexes := q.indexes ++ [q.buf.length], inWord := false } else q

/-- Append one code point to the output buffer (`q.buf.WriteRune(c)` for a
`c` that is already a valid code point, which every iterated `rune` is). -/
def appendRune (q : quoter) (c : Char) : quoter :=
  { q with buf := q.buf ++ [c] }

/-- The code point actually encoded by `strings.Builder.WriteRune` for an
arbitrary `rune` value: the value itself when it is a Unicode scalar value,
and U+FFFD otherwise (negative, surrogate, or above U+10FFFF). -/
def runeToChar (r : Int) : Char :=
  if (0 ≤ r ∧ r < 55296) ∨ (57344 ≤ r ∧ r ≤ 1114111) then Char.ofNat r.toNat
  else Char.ofNat 65533

/-- `q.buf.WriteRune(r)` for an arbitrary accumulated `rune` value. -/
def writeRune (q : quoter) (r : Int) : quoter :=
  appendRune q (runeToChar r)

/-- `isExactSpace` from quotable.go: only U+0020 counts. -/
def isExactSpace (c : Char) : Bool :=
  c == ' '

/-- Go's `unicode.IsSpace`: the White_Space code points
(TAB, LF, VT, FF, CR, SP, NEL, NBSP, OGHAM SPACE MARK, the EN QUAD..HAIR
SPACE range, LINE SEPARATOR, PARAGRAPH SEPARATOR, NARROW NBSP, MMSP,
IDEOGRAPHIC SPACE). -/
def goIsSpace (c : Char) : Bool :=
  let n := c.toNat
  (9 ≤ n ∧ n ≤ 13) ∨ n = 32 ∨ n = 133 ∨ n = 160 ∨ n = 5760 ∨
    (8192 ≤ n ∧ n ≤ 8202) ∨ n = 8232 ∨ n = 8233 ∨ n = 8239 ∨ n = 8287 ∨ n = 12288

/-- The separator test `q.isspace` as selected by `Split` from the options. -/
def isspace (opt : Options) (c : Char) : Bool :=
  if opt.OnlySpaceIsSpace then isExactSpace c else goIsSpace c

/-- The `hexDigits` lookup table of quotable.go as a function: digit values
for `0`-`9`, `a`-`f`, `A`-`F`, and -1 for every other index below 128. -/
def hexDigitVal (c : Char) : Int :=
  let n := c.toNat
  if 48 ≤ n ∧ n ≤ 57 then (n : Int) - 48
  else if 97 ≤ n ∧ n ≤ 102 then (n : Int) - 87
  else if 65 ≤ n ∧ n ≤ 70 then (n : Int) - 55
  else -1

/-- Wrap an integer into the signed 32-bit range, as Go `rune` (`int32`)
arithmetic does on overflow. -/
def wrap32 (x : Int) : Int :=
  (x + 2147483648) % 4294967296 - 2147483648

/-- `simpleBackslash` from quotable.go: write the character verbatim,
disregarding any specialness, then pop. -/
def simpleBackslash (q : quoter) (c : Char) : quoter :=
  pop (appendRune q c)

/-- `fancyBackslash` from quotable.go: pop first; `x`/`u`/`U` reset the hex
accumulator, set the wanted digit count (2/4/8) and push `hex`; the
canonical single-letter escapes and `\`, `"`, `'` append their character;
anything else records an invalid-escape error (unconditionally) and still
appends the character verbatim. -/
def fancyBackslash (q : quoter) (c : Char) : quoter :=
  let p := pop q
  if c = 'x' then push { p with hexValue := 0, parseHex := 2 } state.hex
  else if c = 'u' then push { p with hexValue := 0, parseHex := 4 } state.hex
  else if c = 'U' then push { p with hexValue := 0, parseHex := 8 } state.hex
  else if c = 'a' then appendRune p (Char.ofNat 7)
  else if c = 'b' then appendRune p (Char.ofNat 8)
  else if c = 'f' then appendRune p (Char.ofNat 12)
  else if c = 'n' then appendRune p (Char.ofNat 10)
  else if c = 'r' then appendRune p (Char.ofNat 13)
  else if c = 't' then appendRune p (Char.ofNat 9)
  else if c = 'v' then appendRune p (Char.ofNat 11)
  else if c = '\\' then appendRune p '\\'
  else if c = '"' then appendRune p '"'
  else if c = Char.ofNat 39 then appendRune p (Char.ofNat 39)
  else { (appendRune p c) with err := some (GoError.invalidEscape c) }

/-- `stateNormal` from quotable.go: a separator finalizes the word (and
returns before the partial flag is set); backslash and quote push their
modes; anything else is appended; every non-separator branch marks a
partial word. -/
def stateNormal (opt : Options) (q : quoter) (c : Char) : quoter :=
  if isspace opt c then newWord q
  else if c = '\\' then { (push q state.backslash) with inWord := true }
  else if c = '"' then { (push q state.quoted) with inWord := true }
  else { (appendRune q c) with inWord := true }

/-- `stateQuoted` from quotable.go: backslash pushes, a quote pops, anything
else (spaces included) is appended literally. -/
def stateQuoted (q : quoter) (c : Char) : quoter :=
  if c = '\\' then push q state.backslash
  else if c = '"' then pop q
  else appendRune q c

/-- `stateBackslash` from quotable.go dispatches through `q.backslash`,
which `Split` set from `opt.FancyBackslash`. -/
def stateBackslash (opt : Options) (q : quoter) (c : Char) : quoter :=
  if opt.FancyBackslash then fancyBackslash q c else simpleBackslash q c

/-- One automaton step: dispatch on the top mode, exactly as `q.next`
calls `q.currentFunc` (always the state function of the top stack entry).
The `hex` branch is `stateHex` from quotable.go: a hex digit (ASCII below
128 with a non-(-1) table value) folds into the accumulator and, when the
wanted count reaches zero, writes the accumulated code point and pops; a
non-digit writes whatever was accumulated (possibly zero), pops, and hands
the same character to the newly active state function.  That re-dispatch is
the only recursion; the `fuel` argument makes it structural, and the
wrapper `next` supplies more fuel than any reachable run consumes. -/
def stepFuel (opt : Options) : Nat → quoter → Char → quoter
  | 0, q, _ => q
  | fuel + 1, q, c =>
    match q.states.head? with
    | some state.normal => stateNormal opt q c
    | some state.quoted => stateQuoted q c
    | some state.backslash => stateBackslash opt q c
    | some state.hex =>
      let val : Int := if c.toNat < 128 then hexDigitVal c else -1
      if val = -1 then
        stepFuel opt fuel (pop (writeRune q q.hexValue)) c
      else
        let q2 := { q with hexValue := wrap32 (q.hexValue * 16 + val), parseHex := q.parseHex - 1 }
        if q2.parseHex = 0 then pop (writeRune q2 q2.hexValue) else q2
    | none => q

/-- `(*quoter).next` from quotable.go. -/
def next (opt : Options) (q : quoter) (c : Char) : quoter :=
  stepFuel opt (q.states.length + 1) q c

/-- The input loop of `Split`: feed every code point in order. -/
def feed (opt : Options) (q : quoter) (s : List Char) : quoter :=
  s.foldl (next opt) q

/-- The quoter as `Split` constructs it: zero value, then the stack seeded
with `normal`. -/
def initQuoter : quoter :=
  { buf := [], states := [state.normal], inWord := false, parseHex := 0,
    hexValue := 0, indexes := [], err := none }

/-- The end-of-input switch of `Split` plus the final `newWord` call:
`quoted` on top sets the mismatched-quote error; `backslash` on top appends
a literal backslash and sets the incomplete-backslash error; the `hex` case
of the Go switch is empty and does nothing; `normal` does nothing. -/
def finish (q : quoter) : quoter :=
  let p :=
    match q.states.head? with
    | some state.quoted => { q with err := some GoError.mismatchedQuote }
    | some state.backslash => { (appendRune q '\\') with err := some GoError.incompleteBackslash }
    | _ => q
  newWord p

/-- One slice `bufStr[prev:next]` of the result-assembly loop. -/
def sliceWord (buf : List Char) (a b : Nat) : String :=
  String.mk ((buf.drop a).take (b - a))

/-- The result-assembly loop of `Split`: successive slices of the buffer
between consecutive recorded boundaries, starting from offset 0. -/
def wordsAux (buf : List Char) : Nat → List Nat → List String
  | _, [] => []
  | prev, n :: rest => sliceWord buf prev n :: wordsAux buf n rest

/-- The full automaton state produced by one `Split` call: options defaulted
from a possibly-nil pointer, the fresh quoter fed the whole input, then the
end-of-input handling. -/
def splitQuoter (s : String) (qopt : Option Options) : quoter :=
  let opt := qopt.getD defaultOptions
  finish (feed opt initQuoter s.toList)

/-- `Split` from quotable.go: the words sliced out of the buffer, and the
recorded error. -/
def Split (s : String) (qopt : Option Options) : List String × Option GoError :=
  let q := splitQuoter s qopt
  (wordsAux q.buf 0 q.indexes, q.err)

/-! ### Field bookkeeping lemmas for the primitive quoter operations -/

variable {q : quoter} {c : Char} {s : state} {r : Int} {opt : Options}

@[simp] theorem appendRune_buf : (appendRune q c).buf = q.buf ++ [c] := rfl

@[simp] theorem appendRune_states : (appendRune q c).states = q.states := rfl

@[simp] theorem appendRune_indexes : (appendRune q c).indexes = q.indexes := rfl

@[simp] theorem appendRune_inWord : (appendRune q c).inWord = q.inWord := rfl

@[simp] theorem appendRune_err : (appendRune q c).err = q.err := rfl

@[simp] theorem writeRune_eq : writeRune q r = appendRune q (runeToChar r) := rfl

@[simp] theorem push_buf : (push q s).buf = q.buf := rfl

@[simp] theorem push_indexes : (push q s).indexes = q.indexes := rfl

@[simp] theorem push_inWord : (push q s).inWord = q.inWord := rfl

@[simp] theorem push_err : (push q s).err = q.err := rfl

theorem push_states :
    (push q s).states = s :: (if q.states.isEmpty then [state.normal] else q.states) := rfl

@[simp] theorem pop_buf : (pop q).buf = q.buf := by
  unfold pop; split <;> rfl

@[simp] theorem pop_indexes : (pop q).indexes = q.indexes := by
  unfold pop; split <;> rfl

@[simp] theorem pop_inWord : (pop q).inWord = q.inWord := by
  unfold pop; split <;> rfl

@[simp] theorem pop_err : (pop q).err = q.err := by
  unfold pop; split <;> rfl

theorem pop_cons2 {a m : state} {rest : List state} (h : q.states = a :: m :: rest) :
    pop q = { q with states := m :: rest } := by
  unfold pop
  split
  · rename_i x y r heq
    rw [h] at heq
    cases heq
    rfl
  · rename_i hno
    exact absurd h (hno _ _ _)

theorem pop_singleton {a : state} (h : q.states = [a]) : pop q = q := by
  unfold pop
  split
  · rename_i x y r heq
    rw [h] at heq
    simp at heq
  · rfl

theorem pop_states_cons {m : state} {rest : List state} (h : q.states = s :: m :: rest) :
    (pop q).states = m :: rest := by
  rw [pop_cons2 h]

@[simp] theorem newWord_buf : (newWord q).buf = q.buf := by
  unfold newWord; split <;> rfl

@[simp] theorem newWord_states : (newWord q).states = q.states := by
  unfold newWord; split <;> rfl

@[simp] theorem newWord_err : (newWord q).err = q.err := by
  unfold newWord; split <;> rfl

/-! ### The stack invariant: the bottom entry is `Normal`

The stack is modelled with its top at the head, so the Go slice's bottom
entry is the last element of `states`. -/

/-- The stack is nonempty with `normal` at the bottom. -/
def StackOK (q : quoter) : Prop :=
  ∃ l : List state, q.states = l ++ [state.normal]

theorem StackOK.ne_nil (h : StackOK q) : q.states ≠ [] := by
  obtain ⟨l, hl⟩ := h
  simp [hl]

theorem StackOK.getLast? (h : StackOK q) : q.states.getLast? = some state.normal := by
  obtain ⟨l, hl⟩ := h
  simp [hl, List.getLast?_concat]

theorem stackOK_of_states (h : StackOK q) (h2 : q'.states = q.states) : StackOK q' := by
  obtain ⟨l, hl⟩ := h
  exact ⟨l, h2 ▸ hl⟩

theorem stackOK_setErr {e : Option GoError} (h : StackOK q) : StackOK { q with err := e } :=
  stackOK_of_states h rfl

theorem stackOK_setInWord {b : Bool} (h : StackOK q) : StackOK { q with inWord := b } :=
  stackOK_of_states h rfl

theorem stackOK_setHexPair {hv ph : Int} (h : StackOK q) :
    StackOK { q with hexValue := hv, parseHex := ph } :=
  stackOK_of_states h rfl

theorem stackOK_push (h : StackOK q) : StackOK (push q s) := by
  obtain ⟨l, hl⟩ := h
  refine ⟨s :: l, ?_⟩
  rw [push_states, hl]
  simp

theorem stackOK_pop (h : StackOK q) : StackOK (pop q) := by
  obtain ⟨l, hl⟩ := h
  cases l with
  | nil =>
    rw [pop_singleton (by simpa using hl)]
    exact ⟨[], hl⟩
  | cons a l' =>
    cases l' with
    | nil =>
      rw [pop_cons2 (by simpa using hl)]
      exact ⟨[], rfl⟩
    | cons b l'' =>
      rw [pop_cons2 (by simpa using hl)]
      exact ⟨b :: l'', rfl⟩

theorem stackOK_appendRune (h : StackOK q) : StackOK (appendRune q c) :=
  stackOK_of_states h rfl

theorem stackOK_newWord (h : StackOK q) : StackOK (newWord q) :=
  stackOK_of_states h newWord_states

theorem stackOK_simpleBackslash (h : StackOK q) : StackOK (simpleBackslash q c) :=
  stackOK_pop (stackOK_appendRune h)

/-- Every branch of `fancyBackslash` either pushes `hex` onto the popped
stack, appends one character to the popped quoter, or appends the
character and records the invalid-escape error. -/
theorem fancyBackslash_cases (q : quoter) (c : Char) :
    (∃ ph : Int, fancyBackslash q c = push { (pop q) with hexValue := 0, parseHex := ph } state.hex)
    ∨ (∃ d : Char, fancyBackslash q c = appendRune (pop q) d)
    ∨ fancyBackslash q c = { (appendRune (pop q) c) with err := some (GoError.invalidEscape c) } := by
  unfold fancyBackslash
  by_cases h1 : c = 'x'
  · simp only [if_pos h1]
    exact Or.inl ⟨2, rfl⟩
  simp only [if_neg h1]
  by_cases h2 : c = 'u'
  · simp only [if_pos h2]
    exact Or.inl ⟨4, rfl⟩
  simp only [if_neg h2]
  by_cases h3 : c = 'U'
  · simp only [if_pos h3]
    exact Or.inl ⟨8, rfl⟩
  simp only [if_neg h3]
  by_cases h4 : c = 'a'
  · simp only [if_pos h4]
    exact Or.inr (Or.inl ⟨Char.ofNat 7, rfl⟩)
  simp only [if_neg h4]
  by_cases h5 : c = 'b'
  · simp only [if_pos h5]
    exact Or.inr (Or.inl ⟨Char.ofNat 8, rfl⟩)
  simp only [if_neg h5]
  by_cases h6 : c = 'f'
  · simp only [if_pos h6]
    exact Or.inr (Or.inl ⟨Char.ofNat 12, rfl⟩)
  simp only [if_neg h6]
  by_cases h7 : c = 'n'
  · simp only [if_pos h7]
    exact Or.inr (Or.inl ⟨Char.ofNat 10, rfl⟩)
  simp only [if_neg h7]
  by_cases h8 : c = 'r'
  · simp only [if_pos h8]
    exact Or.inr (Or.inl ⟨Char.ofNat 13, rfl⟩)
  simp only [if_neg h8]
  by_cases h9 : c = 't'
  · simp only [if_pos h9]
    exact Or.inr (Or.inl ⟨Char.ofNat 9, rfl⟩)
  simp only [if_neg h9]
  by_cases h10 : c = 'v'
  · simp only [if_pos h10]
    exact Or.inr (Or.inl ⟨Char.ofNat 11, rfl⟩)
  simp only [if_neg h10]
  by_cases h11 : c = '\\'
  · simp only [if_pos h11]
    exact Or.inr (Or.inl ⟨'\\', rfl⟩)
  simp only [if_neg h11]
  by_cases h12 : c = '"'
  · simp only [if_pos h12]
    exact Or.inr (Or.inl ⟨'"', rfl⟩)
  simp only [if_neg h12]
  by_cases h13 : c = Char.ofNat 39
  · simp only [if_pos h13]
    exact Or.inr (Or.inl ⟨Char.ofNat 39, rfl⟩)
  simp only [if_neg h13]
  exact Or.inr (Or.inr trivial)

/-- The default branch of `fancyBackslash`: an unrecognized escape
character records the invalid-escape error (overwriting any pending
error) and still appends the character verbatim. -/
theorem fancyBackslash_default (q : quoter) (c : Char)
    (h1 : c ≠ 'x') (h2 : c ≠ 'u') (h3 : c ≠ 'U') (h4 : c ≠ 'a') (h5 : c ≠ 'b')
    (h6 : c ≠ 'f') (h7 : c ≠ 'n') (h8 : c ≠ 'r') (h9 : c ≠ 't') (h10 : c ≠ 'v')
    (h11 : c ≠ '\\') (h12 : c ≠ '"') (h13 : c ≠ Char.ofNat 39) :
    fancyBackslash q c = { (appendRune (pop q) c) with err := some (GoError.invalidEscape c) } := by
  unfold fancyBackslash
  simp only [if_neg h1, if_neg h2, if_neg h3, if_neg h4, if_neg h5, if_neg h6, if_neg h7, if_neg h8, if_neg h9, if_neg h10, if_neg h11, if_neg h12, if_neg h13]

theorem stackOK_fancyBackslash (h : StackOK q) : StackOK (fancyBackslash q c) := by
  rcases fancyBackslash_cases q c with ⟨ph, he⟩ | ⟨d, he⟩ | he
  · rw [he]
    exact stackOK_push (stackOK_setHexPair (stackOK_pop h))
  · rw [he]
    exact stackOK_appendRune (stackOK_pop h)
  · rw [he]
    exact stackOK_setErr (stackOK_appendRune (stackOK_pop h))

theorem stackOK_stateNormal (h : StackOK q) : StackOK (stateNormal opt q c) := by
  unfold stateNormal
  split_ifs
  all_goals
    first
      | exact stackOK_newWord h
      | exact stackOK_setInWord (stackOK_push h)
      | exact stackOK_setInWord (stackOK_appendRune h)

theorem stackOK_stateQuoted (h : StackOK q) : StackOK (stateQuoted q c) := by
  unfold stateQuoted
  split_ifs
  all_goals
    first
      | exact stackOK_push h
      | exact stackOK_pop h
      | exact stackOK_appendRune h

theorem stackOK_stateBackslash (h : StackOK q) : StackOK (stateBackslash opt q c) := by
  unfold stateBackslash
  split
  · exact stackOK_fancyBackslash h
  · exact stackOK_simpleBackslash h

theorem stackOK_stepFuel : ∀ (fuel : Nat) (q : quoter) (c : Char),
    StackOK q → StackOK (stepFuel opt fuel q c) := by
  intro fuel
  induction fuel with
  | zero => intro q c h; exact h
  | succ n ih =>
    intro q c h
    rw [stepFuel]
    rcases hs : q.states.head? with _ | s
    · simp only [hs]
      exact h
    · cases s
      · simp only [hs]
        exact stackOK_stateNormal h
      · simp only [hs]
        exact stackOK_stateQuoted h
      · simp only [hs]
        exact stackOK_stateBackslash h
      · simp only [hs]
        split_ifs
        all_goals
          first
            | exact ih _ _ (stackOK_pop (stackOK_appendRune h))
            | exact stackOK_pop (stackOK_appendRune (stackOK_setHexPair h))
            | exact stackOK_setHexPair h

theorem stackOK_next (h : StackOK q) : StackOK (next opt q c) :=
  stackOK_stepFuel _ _ _ h

theorem stackOK_feed : ∀ (s : List Char) (q : quoter),
    StackOK q → StackOK (feed opt q s) := by
  intro s
  induction s with
  | nil => intro q h; exact h
  | cons a l ih =>
    intro q h
    exact ih _ (stackOK_next h)

theorem stackOK_finish (h : StackOK q) : StackOK (finish q) := by
  simp only [finish]
  apply stackOK_newWord
  rcases hs : q.states.head? with _ | s
  · simp only [hs]
    exact h
  · cases s
    · simp only [hs]
      exact h
    · simp only [hs]
      exact stackOK_setErr h
    · simp only [hs]
      exact stackOK_setErr (stackOK_appendRune h)
    · simp only [hs]
      exact h

theorem stackOK_init : StackOK initQuoter := ⟨[], rfl⟩

/-! ### The boundary invariant: recorded offsets are monotone and bounded -/

/-- Recorded word boundaries are non-decreasing and bounded by the buffer
length (the buffer only grows, so an entry recorded at the then-current
buffer length stays below every later buffer length). -/
def BoundsOK (q : quoter) : Prop :=
  List.Pairwise (· ≤ ·) q.indexes ∧ ∀ i ∈ q.indexes, i ≤ q.buf.length

theorem boundsOK_mono (h : BoundsOK q) (hidx : q'.indexes = q.indexes)
    (hbuf : q.buf.length ≤ q'.buf.length) : BoundsOK q' := by
  obtain ⟨h1, h2⟩ := h
  exact ⟨hidx ▸ h1, fun i hi => le_trans (h2 i (hidx ▸ hi)) hbuf⟩

theorem boundsOK_setErr {e : Option GoError} (h : BoundsOK q) : BoundsOK { q with err := e } :=
  boundsOK_mono h rfl le_rfl

theorem boundsOK_setInWord {b : Bool} (h : BoundsOK q) : BoundsOK { q with inWord := b } :=
  boundsOK_mono h rfl le_rfl

theorem boundsOK_setHexPair {hv ph : Int} (h : BoundsOK q) :
    BoundsOK { q with hexValue := hv, parseHex := ph } :=
  boundsOK_mono h rfl le_rfl

theorem boundsOK_newWord (h : BoundsOK q) : BoundsOK (newWord q) := by
  obtain ⟨h1, h2⟩ := h
  unfold newWord
  split
  · constructor
    · simp only
      rw [List.pairwise_append]
      refine ⟨h1, List.pairwise_singleton _ _, ?_⟩
      intro a ha b hb
      rw [List.mem_singleton] at hb
      exact hb ▸ h2 a ha
    · intro i hi
      simp only [List.mem_append, List.mem_singleton] at hi
      rcases hi with hi | hi
      · exact h2 i hi
      · exact le_of_eq hi
  · exact ⟨h1, h2⟩

theorem boundsOK_appendRune (h : BoundsOK q) : BoundsOK (appendRune q c) :=
  boundsOK_mono h rfl (by simp)

theorem boundsOK_pop (h : BoundsOK q) : BoundsOK (pop q) :=
  boundsOK_mono h pop_indexes (le_of_eq (congrArg _ pop_buf.symm))

theorem boundsOK_push (h : BoundsOK q) : BoundsOK (push q s) :=
  boundsOK_mono h rfl le_rfl

theorem boundsOK_simpleBackslash (h : BoundsOK q) : BoundsOK (simpleBackslash q c) :=
  boundsOK_pop (boundsOK_appendRune h)

theorem boundsOK_fancyBackslash (h : BoundsOK q) : BoundsOK (fancyBackslash q c) := by
  have h1 : BoundsOK (pop q) := boundsOK_pop h
  rcases fancyBackslash_cases q c with ⟨ph, he⟩ | ⟨d, he⟩ | he
  · rw [he]
    exact boundsOK_push (boundsOK_setHexPair h1)
  · rw [he]
    exact boundsOK_appendRune h1
  · rw [he]
    exact boundsOK_setErr (boundsOK_appendRune h1)

theorem boundsOK_stateNormal (h : BoundsOK q) : BoundsOK (stateNormal opt q c) := by
  unfold stateNormal
  split_ifs
  all_goals
    first
      | exact boundsOK_newWord h
      | exact boundsOK_setInWord (boundsOK_push h)
      | exact boundsOK_setInWord (boundsOK_appendRune h)

theorem boundsOK_stateQuoted (h : BoundsOK q) : BoundsOK (stateQuoted q c) := by
  unfold stateQuoted
  split_ifs
  all_goals
    first
      | exact boundsOK_push h
      | exact boundsOK_pop h
      | exact boundsOK_appendRune h

theorem boundsOK_stateBackslash (h : BoundsOK q) : BoundsOK (stateBackslash opt q c) := by
  unfold stateBackslash
  split
  · exact boundsOK_fancyBackslash h
  · exact boundsOK_simpleBackslash h

theorem boundsOK_stepFuel : ∀ (fuel : Nat) (q : quoter) (c : Char),
    BoundsOK q → BoundsOK (stepFuel opt fuel q c) := by
  intro fuel
  induction fuel with
  | zero => intro q c h; exact h
  | succ n ih =>
    intro q c h
    rw [stepFuel]
    rcases hs : q.states.head? with _ | s
    · simp only [hs]
      exact h
    · cases s
      · simp only [hs]
        exact boundsOK_stateNormal h
      · simp only [hs]
        exact boundsOK_stateQuoted h
      · simp only [hs]
        exact boundsOK_stateBackslash h
      · simp only [hs]
        split_ifs
        all_goals
          first
            | exact ih _ _ (boundsOK_pop (boundsOK_appendRune h))
            | exact boundsOK_pop (boundsOK_appendRune (boundsOK_setHexPair h))
            | exact boundsOK_setHexPair h

theorem boundsOK_next (h : BoundsOK q) : BoundsOK (next opt q c) :=
  boundsOK_stepFuel _ _ _ h

theorem boundsOK_feed : ∀ (s : List Char) (q : quoter),
    BoundsOK q → BoundsOK (feed opt q s) := by
  intro s
  induction s with
  | nil => intro q h; exact h
  | cons a l ih =>
    intro q h
    exact ih _ (boundsOK_next h)

theorem boundsOK_finish (h : BoundsOK q) : BoundsOK (finish q) := by
  simp only [finish]
  apply boundsOK_newWord
  rcases hs : q.states.head? with _ | s
  · simp only [hs]
    exact h
  · cases s
    · simp only [hs]
      exact h
    · simp only [hs]
      exact boundsOK_setErr h
    · simp only [hs]
      exact boundsOK_setErr (boundsOK_appendRune h)
    · simp only [hs]
      exact h

theorem boundsOK_init : BoundsOK initQuoter := by
  constructor
  · exact List.Pairwise.nil
  · intro i hi
    simp [initQuoter] at hi

/-! ### End-of-input characterizations -/

theorem finish_quoted (h : q.states.head? = some state.quoted) :
    finish q = newWord { q with err := some GoError.mismatchedQuote } := by
  simp only [finish, h]

theorem finish_backslash (h : q.states.head? = some state.backslash) :
    finish q = newWord { (appendRune q '\\') with err := some GoError.incompleteBackslash } := by
  simp only [finish, h]

theorem finish_hex (h : q.states.head? = some state.hex) : finish q = newWord q := by
  simp only [finish, h]

theorem finish_normal (h : q.states.head? = some state.normal) : finish q = newWord q := by
  simp only [finish, h]

/-! ### Claims -/

/-- Claim C2 counterexample: with extended escapes, splitting a hex escape
cut short by end of input does NOT return the accumulated code point
U+0006; the empty `case hex:` of the end-of-input switch appends nothing,
so the result is one empty word. -/
theorem C2_counterexample :
    Split "\\x6" (some fancyOpts) = ([""], none)
    ∧ ([""] : List String) ≠ [String.mk [Char.ofNat 6]] := by
  decide

/-- Claim C2, amended: if end of input is reached while `hex` is on top of
the stack, the automaton appends nothing (the accumulated value is
discarded by the empty `case hex:` branch) and raises no error; the
in-progress word is still finalized from what was already in the buffer, so
`Split "\\x6"` with extended escapes returns one empty word and nil error. -/
theorem C2_amended :
    (∀ q : quoter, q.states.head? = some state.hex → finish q = newWord q)
    ∧ Split "\\x6" (some fancyOpts) = ([""], none) :=
  ⟨fun _ h => finish_hex h, by decide⟩

/-- Claim C2 witness: the general part of the amended claim applied to the
concrete automaton state reached by feeding a backslash, `x` and `6`. -/
theorem C2_amended_witness :
    finish (feed fancyOpts initQuoter ['\\', 'x', '6'])
      = newWord (feed fancyOpts initQuoter ['\\', 'x', '6']) :=
  C2_amended.1 _ (by decide)

/-- Claim C3 counterexample: the recorded word boundaries are NOT strictly
increasing on every run: two consecutive empty quoted spans record the
boundary 0 twice. -/
theorem C3_counterexample :
    (splitQuoter "\"\" \"\"" none).indexes = [0, 0]
    ∧ ¬ List.Chain' (· < ·) (splitQuoter "\"\" \"\"" none).indexes := by
  have h : (splitQuoter "\"\" \"\"" none).indexes = [0, 0] := by decide
  refine ⟨h, ?_⟩
  rw [h, List.chain'_cons]
  intro hc
  exact absurd hc.1 (lt_irrefl 0)

/-- Claim C3, amended: throughout every run of `Split` (after any prefix of
the input, and after end-of-input handling), the recorded word-boundary
offsets are non-decreasing and each entry is at most the output buffer
length; consecutive boundaries CAN be equal when an empty word (such as an
empty quoted span) is recorded. -/
theorem C3_amended (opt : Options) (pre : List Char) :
    List.Chain' (· ≤ ·) (feed opt initQuoter pre).indexes
    ∧ (∀ i ∈ (feed opt initQuoter pre).indexes, i ≤ (feed opt initQuoter pre).buf.length)
    ∧ List.Chain' (· ≤ ·) (finish (feed opt initQuoter pre)).indexes
    ∧ ∀ i ∈ (finish (feed opt initQuoter pre)).indexes,
        i ≤ (finish (feed opt initQuoter pre)).buf.length := by
  have h1 : BoundsOK (feed opt initQuoter pre) := boundsOK_feed pre initQuoter boundsOK_init
  have h2 : BoundsOK (finish (feed opt initQuoter pre)) := boundsOK_finish h1
  exact ⟨h1.1.chain', h1.2, h2.1.chain', h2.2⟩

/-- Claim C3 witness: the amended invariant evaluated on the run over
`a b`, whose single mid-run boundary is 1 with buffer length 2. -/
theorem C3_amended_witness :
    List.Chain' (· ≤ ·) (feed defaultOptions initQuoter ['a', ' ', 'b']).indexes
    ∧ 1 ≤ (feed defaultOptions initQuoter ['a', ' ', 'b']).buf.length :=
  ⟨(C3_amended defaultOptions ['a', ' ', 'b']).1,
   (C3_amended defaultOptions ['a', ' ', 'b']).2.1 1 (by decide)⟩

/-- Claim C6: on every input and configuration the mode stack is nonempty
at every step of the run (every prefix of the input, and after
end-of-input handling), its bottom entry — the last element of `states`,
since the top is modelled at the head — is always `normal`, and `pop` on a
depth-1 stack is a no-op, so the bottom entry is never removed. -/
theorem C6_stack_invariant :
    (∀ (opt : Options) (pre : List Char),
        (feed opt initQuoter pre).states ≠ []
        ∧ (feed opt initQuoter pre).states.getLast? = some state.normal
        ∧ (finish (feed opt initQuoter pre)).states.getLast? = some state.normal)
    ∧ ∀ q : quoter, q.states.length = 1 → pop q = q := by
  constructor
  · intro opt pre
    have h1 : StackOK (feed opt initQuoter pre) := stackOK_feed pre initQuoter stackOK_init
    exact ⟨h1.ne_nil, h1.getLast?, (stackOK_finish h1).getLast?⟩
  · intro q h
    rcases hq : q.states with _ | ⟨a, l⟩
    · rw [hq] at h
      simp at h
    · rcases l with _ | ⟨b, l2⟩
      · exact pop_singleton hq
      · rw [hq] at h
        simp at h

/-- Claim C6 witness: the invariant evaluated after feeding a quote (stack
depth 2), and the pop no-op on the depth-1 initial stack. -/
theorem C6_stack_invariant_witness :
    (feed defaultOptions initQuoter ['"']).states.getLast? = some state.normal
    ∧ pop initQuoter = initQuoter :=
  ⟨(C6_stack_invariant.1 defaultOptions ['"']).2.1,
   C6_stack_invariant.2 initQuoter (by decide)⟩

/-- Claim C7: if end of input is reached while `quoted` is on top of the
stack, `Split` records the mismatched-quote error and still finalizes the
in-progress word from whatever was accumulated (end-of-input handling is
exactly the final `newWord` on the quoter with the error set); concretely,
`Split "\"foo"` returns the word `foo` together with the error. -/
theorem C7_unterminated_quote :
    (∀ q : quoter, q.states.head? = some state.quoted →
        finish q = newWord { q with err := some GoError.mismatchedQuote })
    ∧ Split "\"foo" none = (["foo"], some GoError.mismatchedQuote) :=
  ⟨fun _ h => finish_quoted h, by decide⟩

/-- Claim C7 witness: the general part applied to the automaton state
reached by feeding a quote and an `f`. -/
theorem C7_unterminated_quote_witness :
    finish (feed defaultOptions initQuoter ['"', 'f'])
      = newWord { (feed defaultOptions initQuoter ['"', 'f']) with
          err := some GoError.mismatchedQuote } :=
  C7_unterminated_quote.1 _ (by decide)


/-- Claim C1 counterexample: the first error does NOT win.  After the
prefix backslash-`q` the invalid-escape error is pending, yet the full
input backslash-`q`-quote returns the later mismatched-quote error: the
end-of-input structural error replaced the error recorded earlier. -/
theorem C1_counterexample :
    (feed fancyOpts initQuoter ['\\', 'q']).err = some (GoError.invalidEscape 'q')
    ∧ (Split "\\q\"" (some fancyOpts)).2 = some GoError.mismatchedQuote
    ∧ GoError.mismatchedQuote ≠ GoError.invalidEscape 'q' := by
  decide

/-- Claim C1, amended: the LAST error encountered wins.  An inline
invalid-escape error is recorded unconditionally, overwriting any pending
error; and whenever the run ends with `quoted` (resp. `backslash`) on top
of the stack, `Split` returns the mismatched-quote (resp.
incomplete-backslash) error regardless of any error recorded earlier. -/
theorem C1_last_error_wins :
    (∀ (opt : Options) (q : quoter) (c : Char),
        opt.FancyBackslash = true →
        q.states.head? = some state.backslash →
        c ≠ 'x' → c ≠ 'u' → c ≠ 'U' → c ≠ 'a' → c ≠ 'b' → c ≠ 'f' → c ≠ 'n' →
        c ≠ 'r' → c ≠ 't' → c ≠ 'v' → c ≠ '\\' → c ≠ '"' → c ≠ Char.ofNat 39 →
        (next opt q c).err = some (GoError.invalidEscape c))
    ∧ (∀ (s : String) (opt : Options),
        (feed opt initQuoter s.toList).states.head? = some state.quoted →
        (Split s (some opt)).2 = some GoError.mismatchedQuote)
    ∧ (∀ (s : String) (opt : Options),
        (feed opt initQuoter s.toList).states.head? = some state.backslash →
        (Split s (some opt)).2 = some GoError.incompleteBackslash) := by
  refine ⟨?_, ?_, ?_⟩
  · intro opt q c hfb hhead hx hu hU ha hb hf hn hr ht hv hbs hqt hap
    unfold next
    rw [stepFuel]
    simp only [hhead]
    unfold stateBackslash
    rw [if_pos hfb]
    rw [fancyBackslash_default q c hx hu hU ha hb hf hn hr ht hv hbs hqt hap]
  · intro s opt hq
    show (splitQuoter s (some opt)).err = _
    unfold splitQuoter
    simp only [Option.getD_some]
    rw [finish_quoted hq, newWord_err]
  · intro s opt hq
    show (splitQuoter s (some opt)).err = _
    unfold splitQuoter
    simp only [Option.getD_some]
    rw [finish_backslash hq, newWord_err]

/-- Claim C1 witness: the amended claim at concrete states, including an
overwrite — after backslash-`w`-backslash an invalid-escape error for `w`
is pending, and feeding `q` replaces it by the error for `q`. -/
theorem C1_last_error_wins_witness :
    (next fancyOpts (feed fancyOpts initQuoter ['\\', 'w', '\\']) 'q').err
      = some (GoError.invalidEscape 'q')
    ∧ (Split "\\q\"" (some fancyOpts)).2 = some GoError.mismatchedQuote
    ∧ (Split "a\\" (some fancyOpts)).2 = some GoError.incompleteBackslash :=
  ⟨C1_last_error_wins.1 fancyOpts _ 'q' rfl (by decide) (by decide) (by decide) (by decide)
      (by decide) (by decide) (by decide) (by decide) (by decide) (by decide) (by decide)
      (by decide) (by decide) (by decide),
   C1_last_error_wins.2.1 "\\q\"" fancyOpts (by decide),
   C1_last_error_wins.2.2 "a\\" fancyOpts (by decide)⟩

/-- Claim C4: a hex escape that consumes its final digit appends the
accumulated code point and pops back to the mode below the `hex` entry
(the enclosing mode, never `backslash`); concretely, with extended escapes
backslash-`x69x23` yields the single word `ix23`, the `x23` after the
completed escape being ordinary text. -/
theorem C4_hex_completion :
    (∀ (opt : Options) (q : quoter) (c : Char) (m : state) (rest : List state),
        q.states = state.hex :: m :: rest →
        c.toNat < 128 →
        hexDigitVal c ≠ -1 →
        q.parseHex = 1 →
        (next opt q c).states = m :: rest
        ∧ (next opt q c).buf
            = q.buf ++ [runeToChar (wrap32 (q.hexValue * 16 + hexDigitVal c))])
    ∧ Split "\\x69x23" (some fancyOpts) = (["ix23"], none) := by
  constructor
  · intro opt q c m rest hst hlt hdv hph
    have hhead : q.states.head? = some state.hex := by rw [hst]; rfl
    unfold next
    rw [stepFuel]
    simp only [hhead]
    rw [if_pos hlt, if_neg hdv]
    simp only [hph]
    norm_num
    exact pop_states_cons hst
  · decide

/-- Claim C4 witness: the completion step at the state reached by feeding
backslash, `x`, `6` (one digit still wanted), on digit `9`. -/
theorem C4_hex_completion_witness :
    (next fancyOpts (feed fancyOpts initQuoter ['\\', 'x', '6']) '9').states = [state.normal]
    ∧ (next fancyOpts (feed fancyOpts initQuoter ['\\', 'x', '6']) '9').buf
        = (feed fancyOpts initQuoter ['\\', 'x', '6']).buf
          ++ [runeToChar (wrap32 ((feed fancyOpts initQuoter ['\\', 'x', '6']).hexValue * 16
              + hexDigitVal '9'))] :=
  C4_hex_completion.1 fancyOpts _ '9' state.normal [] (by decide) (by decide) (by decide)
    (by decide)

/-- Claim C5: in `hex` mode a non-hex-digit code point makes the automaton
append whatever value has been accumulated (zero if none), pop to the
enclosing mode, and re-dispatch the same code point there, raising no
error; concretely, with extended escapes backslash-`x69` yields `i` and
backslash-`xza` yields the word NUL-`z`-`a`, each with nil error. -/
theorem C5_hex_redispatch :
    (∀ (opt : Options) (q : quoter) (c : Char) (m : state) (rest : List state),
        q.states = state.hex :: m :: rest →
        (c.toNat < 128 → hexDigitVal c = -1) →
        next opt q c = next opt (pop (writeRune q q.hexValue)) c)
    ∧ Split "\\x69" (some fancyOpts) = (["i"], none)
    ∧ Split "\\xza" (some fancyOpts) = ([String.mk [Char.ofNat 0, 'z', 'a']], none) := by
  refine ⟨?_, by decide, by decide⟩
  intro opt q c m rest hst hnd
  have hhead : q.states.head? = some state.hex := by rw [hst]; rfl
  have hval : (if c.toNat < 128 then hexDigitVal c else (-1 : Int)) = -1 := by
    by_cases h : c.toNat < 128
    · rw [if_pos h]
      exact hnd h
    · rw [if_neg h]
  have hps : (pop (writeRune q q.hexValue)).states = m :: rest :=
    @pop_states_cons (writeRune q q.hexValue) state.hex m rest hst
  have hlen : (pop (writeRune q q.hexValue)).states.length + 1 = q.states.length := by
    rw [hps, hst]
    rfl
  unfold next
  rw [hlen]
  rw [stepFuel]
  simp only [hhead, hval]
  simp only [if_true]

/-- Claim C5 witness: the re-dispatch step at the state reached by feeding
backslash and `x` (no digits yet), on the non-digit `z`. -/
theorem C5_hex_redispatch_witness :
    next fancyOpts (feed fancyOpts initQuoter ['\\', 'x']) 'z'
      = next fancyOpts (pop (writeRune (feed fancyOpts initQuoter ['\\', 'x'])
          (feed fancyOpts initQuoter ['\\', 'x']).hexValue)) 'z' :=
  C5_hex_redispatch.1 fancyOpts _ 'z' state.normal [] (by decide) (fun _ => by decide)

/-- Claim C8: with extended escapes off, a backslash makes the next code
point be appended verbatim (the backslash handler never inspects it, so
spaces do not separate, quotes do not open or close quoting, and
backslashes lose their escaping power); concretely `a` backslash-space `b`
is the single word `a b`, while `a` backslash-backslash space `b` is the
two words `a`-backslash and `b`. -/
theorem C8_simple_backslash :
    (∀ (opt : Options) (q : quoter) (c : Char),
        opt.FancyBackslash = false →
        q.states.head? = some state.backslash →
        next opt q c = pop (appendRune q c))
    ∧ Split "a\\ b" none = (["a b"], none)
    ∧ Split "a\\\\ b" none = (["a\\", "b"], none) := by
  refine ⟨?_, by decide, by decide⟩
  intro opt q c hfb hhead
  unfold next
  rw [stepFuel]
  simp only [hhead]
  unfold stateBackslash
  rw [hfb]
  rw [if_neg Bool.false_ne_true]
  rfl

/-- Claim C8 witness: the verbatim-append step at the state reached by
feeding `a` and a backslash, on a space. -/
theorem C8_simple_backslash_witness :
    next defaultOptions (feed defaultOptions initQuoter ['a', '\\']) ' '
      = pop (appendRune (feed defaultOptions initQuoter ['a', '\\']) ' ') :=
  C8_simple_backslash.1 defaultOptions _ ' ' rfl (by decide)

/-- Claim C9: with `strictOpts` only the literal space U+0020 separates
words, with the default options the separator test is Go's
`unicode.IsSpace`, a nil options pointer behaves exactly like the zero
options value, and concretely a tab separates `a` from `b` by default but
is ordinary text under `strictOpts`. -/
theorem C9_space_selection :
    (∀ c : Char, (isspace strictOpts c = true ↔ c = ' '))
    ∧ (∀ c : Char, isspace defaultOptions c = goIsSpace c)
    ∧ (∀ s : String, Split s none = Split s (some defaultOptions))
    ∧ Split "a\tb" none = (["a", "b"], none)
    ∧ Split "a\tb" (some strictOpts) = (["a\tb"], none) := by
  refine ⟨?_, fun c => rfl, fun s => rfl, by decide, by decide⟩
  intro c
  simp [isspace, strictOpts, isExactSpace]

/-- Claim C9 witness: the strict separator test accepts the literal
space. -/
theorem C9_space_selection_witness : isspace strictOpts ' ' = true :=
  (C9_space_selection.1 ' ').mpr rfl

/-- Claim C10: a quote or backslash arriving in `normal` mode marks a word
as in progress while appending nothing to the buffer, so an empty quoted
span produces an empty word: `a` quote-quote `b` gives the three words
`a`, empty, `b`, and a lone quote-quote gives one empty word. -/
theorem C10_empty_word :
    (∀ (opt : Options) (q : quoter) (c : Char),
        q.states.head? = some state.normal →
        (c = '"' ∨ c = '\\') →
        (next opt q c).inWord = true ∧ (next opt q c).buf = q.buf)
    ∧ Split "a \"\" b" none = (["a", "", "b"], none)
    ∧ Split "\"\"" none = ([""], none) := by
  refine ⟨?_, by decide, by decide⟩
  intro opt q c hhead hc
  rcases hc with rfl | rfl
  · have hsp : isspace opt '"' = false := by
      unfold isspace
      split_ifs <;> decide
    unfold next
    rw [stepFuel]
    simp only [hhead]
    unfold stateNormal
    rw [hsp]
    rw [if_neg Bool.false_ne_true]
    rw [if_neg (by decide : ('"' : Char) ≠ '\\'), if_pos rfl]
    exact ⟨rfl, rfl⟩
  · have hsp : isspace opt '\\' = false := by
      unfold isspace
      split_ifs <;> decide
    unfold next
    rw [stepFuel]
    simp only [hhead]
    unfold stateNormal
    rw [hsp]
    rw [if_neg Bool.false_ne_true]
    rw [if_pos rfl]
    exact ⟨rfl, rfl⟩

/-- Claim C10 witness: the word-marking step on the initial state fed a
quote. -/
theorem C10_empty_word_witness :
    (next defaultOptions initQuoter '"').inWord = true
    ∧ (next defaultOptions initQuoter '"').buf = initQuoter.buf :=
  C10_empty_word.1 defaultOptions initQuoter '"' rfl (Or.inl rfl)


end Quotable
